import Mathlib

/- Shallow embedding of the chop-editor multi-cursor text-buffer engine
   (src/buffer.rs and src/pane.rs).

   Modelling conventions:
   - the rope's byte string is a `List Char` (one `Char` stands for one byte);
   - `im::OrdMap<usize, Selection>` is a strictly-sorted association list,
     built with `ordInsert` (which replaces the value at an existing key);
   - the crop rope's grapheme segmentation is an abstract parameter `Seg`
     constrained by the contract of spec section 4.1 (`Seg.Valid`);
   - Rust panics (failed assertions, integer division by zero, the
     `usize::MAX` main-cursor sentinel assertion) are modelled by
     `Option`-valued operations returning `none`;
   - file-system I/O is modelled by an explicit map from names to files. -/

structure Selection where
  start : Nat
  offset : Int
  deriving DecidableEq, Repr

/-- Pane from src/pane.rs, restricted to the fields the buffer engine reads
and writes (`y_offset : f32` and the keyboard `mode` are rendering-side and
are not modelled). `cursors` mirrors `OrdMap<usize, Selection>`. -/
structure Pane where
  cursors : List (Nat × Selection)
  mainCursorStart : Nat
  graphemeColOffset : Nat
  bufferId : Nat
  id : Nat
  deriving DecidableEq, Repr

structure FileInfo where
  filename : String
  isModified : Bool
  fileTime : Nat
  deriving DecidableEq, Repr

structure TextBuffer where
  file : Option FileInfo
  contents : List Char
  deriving DecidableEq, Repr

/-- Pane::new: one empty Selection at offset 0, main cursor at 0. -/
def Pane.new (bufferId : Nat) (paneId : Nat) : Pane :=
  { cursors := [(0, ⟨0, 0⟩)]
    mainCursorStart := 0
    graphemeColOffset := 0
    bufferId := bufferId
    id := paneId }

/-- Insertion into the sorted association list modelling `OrdMap::insert`:
keeps keys strictly ascending and replaces the value at an existing key. -/
def ordInsert : List (Nat × Selection) → Nat → Selection → List (Nat × Selection)
  | [], k, v => [(k, v)]
  | (k₀, v₀) :: rest, k, v =>
      if k < k₀ then (k, v) :: (k₀, v₀) :: rest
      else if k = k₀ then (k, v) :: rest
      else (k₀, v₀) :: ordInsert rest k v

/-- Removal of a key, modelling `OrdMap::remove`. -/
def ordErase : List (Nat × Selection) → Nat → List (Nat × Selection)
  | [], _ => []
  | (k₀, v₀) :: rest, k => if k = k₀ then rest else (k₀, v₀) :: ordErase rest k

/-- Keys of the cursor map, in iteration order. -/
def mapKeys (m : List (Nat × Selection)) : List Nat := m.map Prod.fst

/-- Grapheme segmentation of the crop rope, kept abstract: `isB doc b`
answers `Rope::is_grapheme_boundary(b)` on the byte string `doc`, and
`count doc` answers `graphemes().count()` on `doc`. -/
structure Seg where
  isB : List Char → Nat → Bool
  count : List Char → Nat

/-- Contract of spec section 4.1 used by the proofs: offset 0 and the total
byte length are always grapheme boundaries, and the position of a newline
byte is a grapheme boundary. -/
def Seg.Valid (g : Seg) : Prop :=
  (∀ doc, g.isB doc 0 = true) ∧
  (∀ doc, g.isB doc doc.length = true) ∧
  (∀ doc p, doc.get? p = some '\n' → g.isB doc p = true)

/-- Degenerate segmentation where every byte is its own grapheme (exact for
ASCII text); used to evaluate the model on concrete inputs. -/
def asciiSeg : Seg :=
  { isB := fun _ _ => true
    count := fun doc => doc.length }

/-- Number of newline bytes, the basis of the line arithmetic of the rope. -/
def countNl (doc : List Char) : Nat := (doc.filter (fun c => c = '\n')).length

/-- Rope::line_of_byte, 0-indexed: the line containing byte `b` is the
number of newline bytes strictly before `b`. -/
def lineOfByte (doc : List Char) (b : Nat) : Nat := countNl (doc.take b)

/-- Rope::byte_of_line: byte offset of the start of line `l`, i.e. the
position one past the l-th newline byte (the total length when the rope has
fewer than `l` newlines). -/
def byteOfLine : List Char → Nat → Nat
  | _, 0 => 0
  | [], _ + 1 => 0
  | c :: rest, l + 1 =>
      if c = '\n' then 1 + byteOfLine rest l else 1 + byteOfLine rest (l + 1)

/-- Rope::line_len per the contract of spec section 4.1: the number of
line-separator-delimited segments (a trailing newline does not open an
extra empty segment). -/
def lineLen (doc : List Char) : Nat :=
  countNl doc +
    (match doc.getLast? with
     | some c => if c = '\n' then 0 else 1
     | none => 0)

/-- Byte slice `doc[a..b)`. -/
def sliceBytes (doc : List Char) (a b : Nat) : List Char := (doc.take b).drop a

/-- reset_grapheme_col_offset (src/buffer.rs line 337): the number of
graphemes between the start of the line containing `start` and `start`. -/
def resetGraphemeColOffset (g : Seg) (doc : List Char) (start : Nat) : Nat :=
  g.count (sliceBytes doc (byteOfLine doc (lineOfByte doc start)) start)

/-- Downward scan `while !is_grapheme_boundary(start) { start -= 1 }`.
The crop rope guarantees that offset 0 is a boundary, so the loop never
underflows; the `0` base case of this recursion realises that guarantee. -/
def scanLeftB (g : Seg) (doc : List Char) : Nat → Nat
  | 0 => 0
  | p + 1 => if g.isB doc (p + 1) then p + 1 else scanLeftB g doc p

/-- Upward scan `while !is_grapheme_boundary(start) { start += 1 }`,
written with explicit fuel; callers pass `doc.length + 1 - p` fuel, which
reaches the total length, always a boundary under `Seg.Valid`. -/
def scanRightB (g : Seg) (doc : List Char) : Nat → Nat → Nat
  | 0, p => p
  | fuel + 1, p => if g.isB doc p then p else scanRightB g doc fuel (p + 1)

/-- Walk of one cursor in TextBuffer::move_horizontal (src/buffer.rs lines
199 to 212): each of the `n` iterations does `start = (start + dir)
.max(0).min(byte_len)` and then scans to the next grapheme boundary in the
direction of `dir`; `neg` records `dir = -1`. `Nat` subtraction realises
the `.max(0)` clamp. -/
def hStep (g : Seg) (doc : List Char) (neg : Bool) (s : Nat) : Nat :=
  let s₁ := min (if neg then s - 1 else s + 1) doc.length
  if neg then scanLeftB g doc s₁
  else scanRightB g doc (doc.length + 1 - s₁) s₁

def hWalk (g : Seg) (doc : List Char) (neg : Bool) : Nat → Nat → Nat
  | 0, s => s
  | n + 1, s => hWalk g doc neg n (hStep g doc neg s)

/-- Walk of one cursor in TextBuffer::move_vertical (src/buffer.rs lines
154 to 163): up to `grapheme_col_offset` steps from the start of the
target line, stopping early when `start + 1` reaches the end `le` of the
target line; each step moves one byte and scans up to the next grapheme
boundary. -/
def vWalk (g : Seg) (doc : List Char) (le : Nat) : Nat → Nat → Nat
  | 0, s => s
  | n + 1, s =>
      if le ≤ s + 1 then s
      else vWalk g doc le n (scanRightB g doc (doc.length + 1 - (s + 1)) (s + 1))

/-- Shared shape of the cursor-rebuilding loops of insert,
backdelete_cursor, move_horizontal and move_vertical: iterate over the
old cursors in ascending order with their 0-based rank `i`, insert a fresh
empty Selection at `f i start` into a new map, and remember the new
position of the cursor whose old `start` equals `main` (the Rust code
initialises that slot with the sentinel `usize::MAX`; `Option Nat` models
it, with `none` for the untouched sentinel). -/
def cursorRebuild (main : Nat) (f : Nat → Nat → Nat) :
    List (Nat × Selection) → Nat → List (Nat × Selection) × Option Nat →
    List (Nat × Selection) × Option Nat
  | [], _, acc => acc
  | kv :: rest, i, acc =>
      let s := f i kv.2.start
      cursorRebuild main f rest (i + 1)
        (ordInsert acc.1 s ⟨s, 0⟩, if kv.2.start = main then some s else acc.2)

/-- List-level `Rope::insert(p, t)`: split at byte `p` and splice `t` in.
The rope would refuse an out-of-range `p`; theorems about `insert` carry
the corresponding bound as a hypothesis. -/
def byteInsert (doc : List Char) (p : Nat) (t : List Char) : List Char :=
  doc.take p ++ t ++ doc.drop p

/-- Contents pass of TextBuffer::insert (src/buffer.rs lines 310 to 318):
for the cursor of rank `i` at old start `c`, insert `t` at `c + len(t)*i`
into the progressively updated contents. The Rust loop updates contents
and cursor map together; the two passes are independent (the new starts do
not read the contents, the contents do not read the map), so the model
computes them separately, contents here and cursors via `cursorRebuild`. -/
def insDoc (t : List Char) : List Nat → Nat → List Char → List Char
  | [], _, doc => doc
  | c :: cs, i, doc => insDoc t cs (i + 1) (byteInsert doc (c + t.length * i) t)

/-- is_modified := true on the attached file, if any (src/buffer.rs lines
298 to 304). -/
def markModified : Option FileInfo → Option FileInfo
  | none => none
  | some fi => some { fi with isModified := true }

/-- TextBuffer::insert. `none` models the `assert!(main_cursor_start !=
usize::MAX)` panic when no cursor's old start matches the pane's main
cursor. The involved-panes assertions restrict the call to exactly one
(active) pane, so the model takes a single `Pane`. -/
def TextBuffer.insert (g : Seg) (buf : TextBuffer) (t : List Char) (pane : Pane) :
    Option (TextBuffer × Pane) :=
  let r := cursorRebuild pane.mainCursorStart
    (fun i c => c + t.length * i + t.length) pane.cursors 0 ([], none)
  let contents := insDoc t (pane.cursors.map (fun kv => kv.2.start)) 0 buf.contents
  r.2.map (fun m =>
    ({ file := markModified buf.file, contents := contents },
     { pane with cursors := r.1, mainCursorStart := m,
                 graphemeColOffset := resetGraphemeColOffset g contents m }))

/-- Deletion pass of TextBuffer::backdelete_cursor (src/buffer.rs lines
245 to 256), processing cursors in descending `start` order (`foldr` over
the ascending map): scan left from `max(start,1) - 1` to a grapheme
boundary on the current (already partially deleted) contents, delete up to
the cursor, and record the deleted byte count; the list of counts is in
processing (descending) order. -/
def delPass (g : Seg) : List (Nat × Selection) → List Char → List Char × List Nat
  | [], doc => (doc, [])
  | kv :: rest, doc =>
      let (doc₁, ds) := delPass g rest doc
      let start := scanLeftB g doc₁ (max kv.2.start 1 - 1)
      (doc₁.take start ++ doc₁.drop kv.2.start, ds ++ [kv.2.start - start])

/-- Suffix sums, modelling the in-place loop `for i in (0..len-1).rev()
{ ds[i] += ds[i+1] }` of src/buffer.rs lines 259 to 261. -/
def suffixSums : List Nat → List Nat
  | [] => []
  | d :: rest =>
      let r := suffixSums rest
      (d + r.headD 0) :: r

/-- TextBuffer::backdelete_cursor. The re-anchoring pass subtracts, from
each old start of ascending rank `i`, the suffix sum at index
`len - 1 - i` of the descending-order deletion counts. The recomputation
of grapheme_col_offset reads the ORIGINAL contents (`&self.contents` at
src/buffer.rs line 273), as the code does. -/
def TextBuffer.backdeleteCursor (g : Seg) (buf : TextBuffer) (pane : Pane) :
    Option (TextBuffer × Pane) :=
  let d := delPass g pane.cursors buf.contents
  let sums := suffixSums d.2
  let r := cursorRebuild pane.mainCursorStart
    (fun i c => c - sums.getD (sums.length - 1 - i) 0) pane.cursors 0 ([], none)
  r.2.map (fun m =>
    ({ file := buf.file, contents := d.1 },
     { pane with cursors := r.1, mainCursorStart := m,
                 graphemeColOffset := resetGraphemeColOffset g buf.contents m }))

/-- TextBuffer::move_horizontal. `offset = 0` returns `none`, modelling
the Rust panic of `dir = offset / offset.abs()` (integer division by
zero) at src/buffer.rs line 198; `neg` encodes `dir = -1`. -/
def TextBuffer.moveHorizontal (g : Seg) (buf : TextBuffer) (offset : Int) (pane : Pane) :
    Option (TextBuffer × Pane) :=
  if offset = 0 then none
  else
    let neg := offset < 0
    let r := cursorRebuild pane.mainCursorStart
      (fun _ c => hWalk g buf.contents neg offset.natAbs c) pane.cursors 0 ([], none)
    r.2.map (fun m =>
      ({ file := buf.file, contents := buf.contents },
       { pane with cursors := r.1, mainCursorStart := m,
                   graphemeColOffset := resetGraphemeColOffset g buf.contents m }))

/-- Target-line walk of one cursor in TextBuffer::move_vertical: the
target line is `((line + offset).max(0)).min(line_len())`; its end is the
total byte length when the target is one past the last line, else the
start of the following line. -/
def vTarget (g : Seg) (doc : List Char) (offset : Int) (gco : Nat) (c : Nat) : Nat :=
  let line := lineOfByte doc c
  let other := min (max ((line : Int) + offset) 0).toNat (lineLen doc)
  let ls := byteOfLine doc other
  let le := if other = lineLen doc then doc.length else byteOfLine doc (other + 1)
  vWalk g doc le gco ls

/-- TextBuffer::move_vertical: every cursor is re-seated on its target
line at column `grapheme_col_offset`; contents and grapheme_col_offset
are returned unchanged. -/
def TextBuffer.moveVertical (g : Seg) (buf : TextBuffer) (offset : Int) (pane : Pane) :
    Option (TextBuffer × Pane) :=
  let r := cursorRebuild pane.mainCursorStart
    (fun _ c => vTarget g buf.contents offset pane.graphemeColOffset c)
    pane.cursors 0 ([], none)
  r.2.map (fun m =>
    ({ file := buf.file, contents := buf.contents },
     { pane with cursors := r.1, mainCursorStart := m }))

/-- BufferOp::SetMainCursor handler (src/buffer.rs lines 558 to 572):
remove the entry keyed by the current main cursor, insert a fresh empty
Selection at `i`, make `i` the main cursor and recompute the column. -/
def Pane.setMainCursor (g : Seg) (contents : List Char) (pane : Pane) (i : Nat) : Pane :=
  { pane with
      cursors := ordInsert (ordErase pane.cursors pane.mainCursorStart) i ⟨i, 0⟩
      mainCursorStart := i
      graphemeColOffset := resetGraphemeColOffset g contents i }

/-- BufferOp::AddCursor handler (src/buffer.rs lines 573 to 582): insert
an additional empty Selection at `start`, touching nothing else. -/
def Pane.addCursor (pane : Pane) (start : Nat) : Pane :=
  { pane with cursors := ordInsert pane.cursors start ⟨start, 0⟩ }

/-- Pane invariant of the cursor map: non-empty, every Selection keyed by
its own `start`, the main cursor present among the keys, and the keys
strictly ascending (the ordering guarantee of `OrdMap`). -/
def Pane.inv (pane : Pane) : Prop :=
  pane.cursors ≠ [] ∧
  (∀ kv ∈ pane.cursors, kv.2.start = kv.1) ∧
  pane.mainCursorStart ∈ mapKeys pane.cursors ∧
  List.Pairwise (· < ·) (mapKeys pane.cursors)

instance (pane : Pane) : Decidable pane.inv := by
  unfold Pane.inv; exact inferInstance

/-- File-system model: OS metadata size and file bytes, per name. The
size is the metadata answer (`metadata().len()`), queried separately from
the data, which lets a 3 GiB file be stated without materialising it. -/
structure Fsfile where
  size : Nat
  data : List Char
  deriving DecidableEq, Repr

/-- Model of the reachable file system: name to file, `none` = absent. -/
def FS : Type := String → Option Fsfile

/-- I/O error classes the buffer code produces or propagates:
`ErrorKind::NotFound` from opening an absent file, and
`ErrorKind::InvalidData` with a message (the size-ceiling error). -/
inductive IoError where
  | notFound
  | invalidData (msg : String)
  deriving DecidableEq, Repr

/-- TextBuffer::from_filename (src/buffer.rs lines 73 to 83): query the
metadata size, refuse with InvalidData if at least 3 GiB BEFORE reading
any content (so no partial buffer exists on failure), else read the bytes
into a fresh buffer with `is_modified = false` and `file_time = now`. -/
def TextBuffer.fromFilename (fs : FS) (now : Nat) (name : String) :
    Except IoError TextBuffer :=
  match fs name with
  | none => .error .notFound
  | some f =>
      if 3 * 1024 * 1024 * 1024 ≤ f.size then
        .error (.invalidData "File was larger than 3GB")
      else
        .ok { file := some ⟨name, false, now⟩, contents := f.data }

/-- TextBuffer::from_blank: a total constructor, it cannot fail. -/
def TextBuffer.fromBlank : TextBuffer :=
  { file := none, contents := [] }

/-- TextBuffer::write (src/buffer.rs lines 92 to 111). The Rust code opens
with `OpenOptions::new().write(true)` and neither `create` nor `truncate`:
an absent file is an error, and writing over a longer existing file
overwrites only the prefix, leaving the old tail in place. On success the
returned buffer keeps its contents and gets `is_modified = false`,
`file_time = now`. -/
def TextBuffer.write (fs : FS) (now : Nat) (buf : TextBuffer) (name : String) :
    Except IoError (TextBuffer × FS) :=
  match fs name with
  | none => .error .notFound
  | some f =>
      let newData := buf.contents ++ f.data.drop buf.contents.length
      let fs' : FS := fun n => if n = name then some ⟨newData.length, newData⟩ else fs n
      .ok ({ file := some ⟨name, false, now⟩, contents := buf.contents }, fs')

/-- Spec-side contents of a multi-cursor insert, written from the spec's
words (section 8): `original[0:c0] + t + original[c0:c1] + t + ... +
original[ck:]`, here by peeling the first cursor and shifting the rest. -/
def specInterleave (t : List Char) : List Nat → List Char → List Char
  | [], doc => doc
  | c :: cs, doc =>
      doc.take c ++ t ++ specInterleave t (cs.map (fun x => x - c)) (doc.drop c)
  termination_by cs _ => cs.length
  decreasing_by simp

/-- Spec-side cursor set after an insert: the cursor of rank `i` (0-based,
ascending) at old start `c` lands at `c + (i+1)*len(t)` with an empty
selection. -/
def specNewCursors (tlen : Nat) (cs : List Nat) : List (Nat × Selection) :=
  cs.enum.map (fun ic => (ic.2 + (ic.1 + 1) * tlen, ⟨ic.2 + (ic.1 + 1) * tlen, 0⟩))

/-- Fixture for the write/open round trip: one reachable file "f.txt"
that already holds six bytes. -/
def fsC3 : FS := fun n => if n = "f.txt" then some ⟨6, "abcdef".toList⟩ else none

/- ===================== theorems ===================== -/

theorem asciiSeg_valid : asciiSeg.Valid :=
  ⟨fun _ => rfl, fun _ => rfl, fun _ _ _ => rfl⟩

/-- C2: backdelete_cursor deletes, in descending start order, one grapheme
before each cursor and re-anchors the survivors at their original start
minus the cumulative bytes deleted, de-duplicating collapsed cursors. On
"abcdef\njfkdsalfjads\n..." with cursors {1,5,8} the three preceding
characters are removed and the cursors end at {0,3,5}; on "abcde" with
cursors {3,4} the two cursors collapse onto one at 2 (de-duplication). -/
theorem claimC2_backdelete_concrete :
    TextBuffer.backdeleteCursor asciiSeg
      ⟨none, "abcdef\njfkdsalfjads\nkadsjlfla\nalskdjflasd\nasdjkflsda\naghigh".toList⟩
      ⟨[(1, ⟨1, 0⟩), (5, ⟨5, 0⟩), (8, ⟨8, 0⟩)], 1, 1, 0, 0⟩
    = some (⟨none, "bcdf\nfkdsalfjads\nkadsjlfla\nalskdjflasd\nasdjkflsda\naghigh".toList⟩,
            ⟨[(0, ⟨0, 0⟩), (3, ⟨3, 0⟩), (5, ⟨5, 0⟩)], 0, 0, 0, 0⟩) ∧
    TextBuffer.backdeleteCursor asciiSeg ⟨none, "abcde".toList⟩
      ⟨[(3, ⟨3, 0⟩), (4, ⟨4, 0⟩)], 3, 3, 0, 0⟩
    = some (⟨none, "abe".toList⟩, ⟨[(2, ⟨2, 0⟩)], 2, 2, 0, 0⟩) := by
  constructor
  · rfl
  · rfl

/-- C3 (code bug): TextBuffer::write opens with `write(true)` and no
truncate, so saving a 2-byte buffer over the 6-byte file "abcdef" leaves
"xycdef" on disk; reopening yields "xycdef", not the buffer's "xy" — the
write/open round trip of the spec fails. The returned buffer itself does
carry `is_modified = false`, the refreshed `file_time` and unchanged
contents, as the spec says. -/
theorem claimC3_write_no_truncate :
    ((TextBuffer.write fsC3 7 ⟨none, "xy".toList⟩ "f.txt").toOption.map Prod.fst)
      = some ⟨some ⟨"f.txt", false, 7⟩, "xy".toList⟩ ∧
    ((TextBuffer.write fsC3 7 ⟨none, "xy".toList⟩ "f.txt").toOption.bind
        (fun r => (TextBuffer.fromFilename r.2 8 "f.txt").toOption.map TextBuffer.contents))
      = some "xycdef".toList ∧
    "xycdef".toList ≠ "xy".toList := by
  refine ⟨rfl, rfl, ?_⟩
  decide

/-- C4 (counterexample): on "a\nb" with the single cursor at 0 and
grapheme_col_offset 0, move_horizontal(2) crosses the newline; the claim
predicts grapheme_col_offset 0 + 2 = 2, but the code recomputes it from
the new main cursor position 2, the start of line 1, giving 0. -/
theorem claimC4_counterexample :
    (TextBuffer.moveHorizontal asciiSeg ⟨none, "a\nb".toList⟩ 2
        ⟨[(0, ⟨0, 0⟩)], 0, 0, 0, 0⟩).map (fun r => r.2.graphemeColOffset)
      = some 0 ∧ (0 : Nat) ≠ 0 + 2 := by
  exact ⟨rfl, by decide⟩


theorem mapKeys_nil : mapKeys [] = [] := rfl

theorem mapKeys_cons (kv : Nat × Selection) (tl : List (Nat × Selection)) :
    mapKeys (kv :: tl) = kv.1 :: mapKeys tl := rfl

theorem mapKeys_append (a b : List (Nat × Selection)) :
    mapKeys (a ++ b) = mapKeys a ++ mapKeys b := by
  simp [mapKeys]

theorem ordInsert_ne_nil (m : List (Nat × Selection)) (k : Nat) (v : Selection) :
    ordInsert m k v ≠ [] := by
  match m with
  | [] => simp [ordInsert]
  | (k₀, v₀) :: rest =>
      simp only [ordInsert]
      split
      · simp
      · split <;> simp

theorem mem_ordInsert {m : List (Nat × Selection)} {k : Nat} {v : Selection}
    {kv : Nat × Selection} (h : kv ∈ ordInsert m k v) : kv = (k, v) ∨ kv ∈ m := by
  induction m with
  | nil => simpa [ordInsert] using h
  | cons hd tl ih =>
      obtain ⟨k₀, v₀⟩ := hd
      simp only [ordInsert] at h
      split at h
      · rcases List.mem_cons.mp h with h | h
        · exact Or.inl h
        · exact Or.inr h
      · split at h
        · rcases List.mem_cons.mp h with h | h
          · exact Or.inl h
          · exact Or.inr (List.mem_cons_of_mem _ h)
        · rcases List.mem_cons.mp h with h | h
          · exact Or.inr (by simp [h])
          · rcases ih h with h' | h'
            · exact Or.inl h'
            · exact Or.inr (List.mem_cons_of_mem _ h')

theorem self_mem_keys_ordInsert (m : List (Nat × Selection)) (k : Nat) (v : Selection) :
    k ∈ mapKeys (ordInsert m k v) := by
  induction m with
  | nil => simp [ordInsert, mapKeys]
  | cons hd tl ih =>
      obtain ⟨k₀, v₀⟩ := hd
      simp only [ordInsert]
      split
      · simp [mapKeys_cons]
      · split
        · simp [mapKeys_cons]
        · simp only [mapKeys_cons, List.mem_cons]
          exact Or.inr ih

theorem mem_keys_ordInsert_of_mem {m : List (Nat × Selection)} {k x : Nat} (v : Selection)
    (h : x ∈ mapKeys m) : x ∈ mapKeys (ordInsert m k v) := by
  induction m with
  | nil => simp [mapKeys] at h
  | cons hd tl ih =>
      obtain ⟨k₀, v₀⟩ := hd
      simp only [mapKeys_cons, List.mem_cons] at h
      simp only [ordInsert]
      split
      · rcases h with h | h <;> simp [mapKeys_cons, h]
      · split
        · rename_i hlt heq
          rcases h with h | h <;> simp [mapKeys_cons, h, heq]
        · rcases h with h | h
          · simp [mapKeys_cons, h]
          · simp only [mapKeys_cons, List.mem_cons]
            exact Or.inr (ih h)

theorem mem_keys_ordInsert {m : List (Nat × Selection)} {k x : Nat} {v : Selection}
    (h : x ∈ mapKeys (ordInsert m k v)) : x = k ∨ x ∈ mapKeys m := by
  rcases List.mem_map.mp h with ⟨kv, hkv, hfst⟩
  rcases mem_ordInsert hkv with h' | h'
  · left; rw [← hfst, h']
  · right; exact hfst ▸ List.mem_map_of_mem Prod.fst h'

theorem ordInsert_sorted {m : List (Nat × Selection)} (k : Nat) (v : Selection)
    (h : List.Pairwise (· < ·) (mapKeys m)) :
    List.Pairwise (· < ·) (mapKeys (ordInsert m k v)) := by
  induction m with
  | nil => simp [ordInsert, mapKeys]
  | cons hd tl ih =>
      obtain ⟨k₀, v₀⟩ := hd
      rw [mapKeys_cons, List.pairwise_cons] at h
      simp only [ordInsert]
      split
      · rename_i hlt
        rw [mapKeys_cons, List.pairwise_cons]
        refine ⟨?_, List.pairwise_cons.mpr h⟩
        intro y hy
        rcases (List.mem_cons.mp hy) with h' | h'
        · omega
        · exact lt_trans hlt (h.1 y h')
      · split
        · rename_i hlt heq
          rw [mapKeys_cons, List.pairwise_cons]
          exact ⟨fun y hy => heq ▸ h.1 y hy, h.2⟩
        · rename_i hlt heq
          rw [mapKeys_cons, List.pairwise_cons]
          refine ⟨?_, ih h.2⟩
          intro y hy
          rcases mem_keys_ordInsert hy with h' | h'
          · omega
          · exact h.1 y h'

theorem ordInsert_length_of_mem {m : List (Nat × Selection)} {k : Nat} (v : Selection)
    (hs : List.Pairwise (· < ·) (mapKeys m)) (h : k ∈ mapKeys m) :
    (ordInsert m k v).length = m.length := by
  induction m with
  | nil => simp [mapKeys] at h
  | cons hd tl ih =>
      obtain ⟨k₀, v₀⟩ := hd
      rw [mapKeys_cons, List.pairwise_cons] at hs
      rcases (by simpa [mapKeys_cons] using h : k = k₀ ∨ k ∈ mapKeys tl) with h' | h'
      · simp [ordInsert, h']
      · have hk₀ : k₀ < k := hs.1 k h'
        simp only [ordInsert]
        rw [if_neg (by omega), if_neg (by omega)]
        simp [ih hs.2 h']

theorem ordInsert_append_last {m : List (Nat × Selection)} {k : Nat} (v : Selection)
    (h : ∀ x ∈ mapKeys m, x < k) : ordInsert m k v = m ++ [(k, v)] := by
  induction m with
  | nil => simp [ordInsert]
  | cons hd tl ih =>
      obtain ⟨k₀, v₀⟩ := hd
      have hk₀ : k₀ < k := h k₀ (by simp [mapKeys_cons])
      simp only [ordInsert]
      rw [if_neg (by omega), if_neg (by omega)]
      simp only [List.cons_append, List.cons.injEq, true_and]
      exact ih (fun x hx => h x (by simp only [mapKeys_cons, List.mem_cons]; exact Or.inr hx))

theorem ordErase_sublist (m : List (Nat × Selection)) (k : Nat) :
    (ordErase m k).Sublist m := by
  induction m with
  | nil => simp [ordErase]
  | cons hd tl ih =>
      obtain ⟨k₀, v₀⟩ := hd
      simp only [ordErase]
      split
      · exact List.sublist_cons_self _ _
      · exact List.Sublist.cons₂ _ ih

theorem cursorRebuild_append (main : Nat) (f : Nat → Nat → Nat)
    (xs ys : List (Nat × Selection)) :
    ∀ i acc, cursorRebuild main f (xs ++ ys) i acc
      = cursorRebuild main f ys (i + xs.length) (cursorRebuild main f xs i acc) := by
  induction xs with
  | nil => intro i acc; simp [cursorRebuild]
  | cons x xs ih =>
      intro i acc
      simp only [List.cons_append, cursorRebuild]
      simp only [List.append_eq]
      rw [ih]
      congr 1
      simp only [List.length_cons]
      omega

theorem cursorRebuild_fst_prop (main : Nat) (f : Nat → Nat → Nat)
    (Q : Nat → Prop) (P : List (Nat × Selection) → Prop)
    (hf : ∀ i c, Q (f i c))
    (hins : ∀ m s, Q s → P m → P (ordInsert m s ⟨s, 0⟩)) :
    ∀ cs i acc, P acc.1 → P (cursorRebuild main f cs i acc).1 := by
  intro cs
  induction cs with
  | nil => intro i acc h; exact h
  | cons kv rest ih =>
      intro i acc h
      simp only [cursorRebuild]
      exact ih (i + 1) _ (hins _ _ (hf i kv.2.start) h)

theorem cursorRebuild_snd_mem (main : Nat) (f : Nat → Nat → Nat) :
    ∀ cs i acc, (∀ y, acc.2 = some y → y ∈ mapKeys acc.1) →
      ∀ y, (cursorRebuild main f cs i acc).2 = some y →
        y ∈ mapKeys (cursorRebuild main f cs i acc).1 := by
  intro cs
  induction cs with
  | nil => intro i acc h; exact h
  | cons kv rest ih =>
      intro i acc h
      simp only [cursorRebuild]
      apply ih
      intro y hy
      by_cases hm : kv.2.start = main
      · rw [if_pos hm] at hy
        obtain rfl : f i kv.2.start = y := by injection hy
        exact self_mem_keys_ordInsert _ _ _
      · simp only [if_neg hm] at hy
        exact mem_keys_ordInsert_of_mem _ (h y hy)

theorem cursorRebuild_snd_isSome (main : Nat) (f : Nat → Nat → Nat) :
    ∀ cs i acc, main ∈ cs.map (fun kv => kv.2.start) ∨ acc.2.isSome →
      (cursorRebuild main f cs i acc).2.isSome := by
  intro cs
  induction cs with
  | nil =>
      intro i acc h
      rcases h with h | h
      · simp at h
      · exact h
  | cons kv rest ih =>
      intro i acc h
      simp only [cursorRebuild]
      apply ih
      by_cases hm : kv.2.start = main
      · right; simp [hm]
      · rcases h with h | h
        · simp only [List.map_cons, List.mem_cons] at h
          rcases h with h | h
          · exact absurd h.symm hm
          · left; exact h
        · right; simpa [if_neg hm] using h

theorem cursorRebuild_snd_nomatch (main : Nat) (f : Nat → Nat → Nat) :
    ∀ cs i acc, (∀ kv ∈ cs, kv.2.start ≠ main) →
      (cursorRebuild main f cs i acc).2 = acc.2 := by
  intro cs
  induction cs with
  | nil => intro i acc _; rfl
  | cons kv rest ih =>
      intro i acc h
      simp only [cursorRebuild, if_neg (h kv (by simp))]
      exact ih (i + 1) _ (fun kv' hkv' => h kv' (List.mem_cons_of_mem _ hkv'))

theorem cursorRebuild_snd_unique (main : Nat) (f : Nat → Nat → Nat)
    (pre post : List (Nat × Selection)) (kv₀ : Nat × Selection)
    (h₀ : kv₀.2.start = main) (hpost : ∀ kv ∈ post, kv.2.start ≠ main)
    (i : Nat) (acc : List (Nat × Selection) × Option Nat) :
    (cursorRebuild main f (pre ++ kv₀ :: post) i acc).2
      = some (f (i + pre.length) main) := by
  rw [cursorRebuild_append]
  simp only [cursorRebuild, if_pos h₀]
  rw [cursorRebuild_snd_nomatch main f post _ _ hpost]
  rw [h₀]

theorem pane_inv_decomp {pane : Pane} (h : pane.inv) :
    ∃ pre kv₀ post, pane.cursors = pre ++ kv₀ :: post ∧
      kv₀.2.start = pane.mainCursorStart ∧
      (∀ kv ∈ post, kv.2.start ≠ pane.mainCursorStart) := by
  obtain ⟨hne, hkeyed, hmain, hsorted⟩ := h
  obtain ⟨kv₀, hkv₀, hfst⟩ := List.mem_map.mp hmain
  obtain ⟨pre, post, hdecomp⟩ := List.append_of_mem hkv₀
  refine ⟨pre, kv₀, post, hdecomp, by rw [hkeyed kv₀ hkv₀, hfst], ?_⟩
  intro kv hkv
  have hmem : kv ∈ pane.cursors := by
    rw [hdecomp]; exact List.mem_append_right _ (List.mem_cons_of_mem _ hkv)
  rw [hkeyed kv hmem]
  rw [hdecomp, mapKeys_append, mapKeys_cons] at hsorted
  have hlt : kv₀.1 < kv.1 :=
    List.rel_of_pairwise_cons (List.pairwise_append.mp hsorted).2.1
      (List.mem_map_of_mem Prod.fst hkv)
  omega

theorem cursorRebuild_result_inv (main : Nat) (f : Nat → Nat → Nat)
    (cs : List (Nat × Selection)) (hne : cs ≠ []) :
    (cursorRebuild main f cs 0 ([], none)).1 ≠ [] ∧
    (∀ kv ∈ (cursorRebuild main f cs 0 ([], none)).1, kv.2.start = kv.1) ∧
    (∀ m, (cursorRebuild main f cs 0 ([], none)).2 = some m →
      m ∈ mapKeys (cursorRebuild main f cs 0 ([], none)).1) ∧
    List.Pairwise (· < ·) (mapKeys (cursorRebuild main f cs 0 ([], none)).1) := by
  refine ⟨?_, ?_, ?_, ?_⟩
  · obtain ⟨kv, rest, rfl⟩ := List.exists_cons_of_ne_nil hne
    simp only [cursorRebuild]
    exact cursorRebuild_fst_prop main f (fun _ => True) (fun m => m ≠ [])
      (fun _ _ => trivial) (fun m s _ _ => ordInsert_ne_nil m s _)
      rest 1 _ (ordInsert_ne_nil _ _ _)
  · exact cursorRebuild_fst_prop main f (fun _ => True)
      (fun m => ∀ kv ∈ m, kv.2.start = kv.1) (fun _ _ => trivial)
      (fun m s _ hm kv hkv => by
        rcases mem_ordInsert hkv with h | h
        · simp [h]
        · exact hm kv h)
      cs 0 _ (by intro kv h; simp at h)
  · intro m hm
    exact cursorRebuild_snd_mem main f cs 0 ([], none) (by intro y hy; simp at hy) m hm
  · exact cursorRebuild_fst_prop main f (fun _ => True)
      (fun m => List.Pairwise (· < ·) (mapKeys m)) (fun _ _ => trivial)
      (fun m s _ hm => ordInsert_sorted s _ hm) cs 0 _ (by simp [mapKeys])

/-- C8: AddCursor has set semantics on `start`: inserting at an existing
key leaves the number of cursors unchanged, and AddCursor never changes
`main_cursor_start`. The sortedness hypothesis is the ordering guarantee
every `OrdMap` value carries. -/
theorem claimC8_addCursor_idempotent (pane : Pane) (s : Nat)
    (hsorted : List.Pairwise (· < ·) (mapKeys pane.cursors)) :
    (s ∈ mapKeys pane.cursors →
      (pane.addCursor s).cursors.length = pane.cursors.length) ∧
    (pane.addCursor s).mainCursorStart = pane.mainCursorStart := by
  constructor
  · intro hmem
    simp only [Pane.addCursor]
    exact ordInsert_length_of_mem _ hsorted hmem
  · rfl

/-- C8 witness: a concrete pane with a cursor at 1, re-adding start 1. -/
theorem claimC8_addCursor_idempotent_witness :
    List.Pairwise (· < ·) (mapKeys (⟨[(1, ⟨1, 0⟩)], 1, 0, 0, 0⟩ : Pane).cursors) ∧
    ((1 ∈ mapKeys (⟨[(1, ⟨1, 0⟩)], 1, 0, 0, 0⟩ : Pane).cursors →
      ((⟨[(1, ⟨1, 0⟩)], 1, 0, 0, 0⟩ : Pane).addCursor 1).cursors.length
        = (⟨[(1, ⟨1, 0⟩)], 1, 0, 0, 0⟩ : Pane).cursors.length) ∧
     ((⟨[(1, ⟨1, 0⟩)], 1, 0, 0, 0⟩ : Pane).addCursor 1).mainCursorStart
        = (⟨[(1, ⟨1, 0⟩)], 1, 0, 0, 0⟩ : Pane).mainCursorStart) :=
  ⟨by decide, claimC8_addCursor_idempotent _ 1 (by decide)⟩

/-- C10: move_horizontal computes `dir = offset / offset.abs()`, which
divides by zero and panics exactly when `offset = 0` (modelled by `none`);
for any non-zero offset on a pane satisfying the invariant the operation
completes. -/
theorem claimC10_moveHorizontal_offset_zero (g : Seg) (buf : TextBuffer) (pane : Pane)
    (offset : Int) (hoff : offset ≠ 0) (hinv : pane.inv) :
    TextBuffer.moveHorizontal g buf 0 pane = none ∧
    (TextBuffer.moveHorizontal g buf offset pane).isSome := by
  constructor
  · simp [TextBuffer.moveHorizontal]
  · simp only [TextBuffer.moveHorizontal, if_neg hoff]
    rw [Option.isSome_map']
    apply cursorRebuild_snd_isSome
    left
    obtain ⟨hne, hkeyed, hmain, hsorted⟩ := hinv
    rcases List.mem_map.mp hmain with ⟨kv, hkv, hfst⟩
    exact List.mem_map.mpr ⟨kv, hkv, by rw [hkeyed kv hkv, hfst]⟩

/-- C10 witness: a one-cursor pane moved by a non-zero offset. -/
theorem claimC10_moveHorizontal_offset_zero_witness :
    ((1 : Int) ≠ 0 ∧ (⟨[(0, ⟨0, 0⟩)], 0, 0, 0, 0⟩ : Pane).inv) ∧
    (TextBuffer.moveHorizontal asciiSeg ⟨none, "ab".toList⟩ 0
        ⟨[(0, ⟨0, 0⟩)], 0, 0, 0, 0⟩ = none ∧
     (TextBuffer.moveHorizontal asciiSeg ⟨none, "ab".toList⟩ 1
        ⟨[(0, ⟨0, 0⟩)], 0, 0, 0, 0⟩).isSome) :=
  ⟨⟨by decide, by decide⟩,
   claimC10_moveHorizontal_offset_zero asciiSeg ⟨none, "ab".toList⟩
     ⟨[(0, ⟨0, 0⟩)], 0, 0, 0, 0⟩ 1 (by decide) (by decide)⟩

/-- C7: from_filename deterministically fails with the InvalidData-class
"File was larger than 3GB" error when the metadata size is at least 3 GiB
(the `Except.error` result carries no buffer, so none is constructed),
succeeds on a smaller readable file, and from_blank is total. -/
theorem claimC7_size_ceiling (fs : FS) (now : Nat) (name : String) (f : Fsfile)
    (hf : fs name = some f) :
    (3 * 1024 * 1024 * 1024 ≤ f.size →
      TextBuffer.fromFilename fs now name
        = .error (.invalidData "File was larger than 3GB")) ∧
    (f.size < 3 * 1024 * 1024 * 1024 →
      TextBuffer.fromFilename fs now name = .ok ⟨some ⟨name, false, now⟩, f.data⟩) ∧
    TextBuffer.fromBlank = ⟨none, []⟩ := by
  refine ⟨?_, ?_, rfl⟩
  · intro hsize
    simp [TextBuffer.fromFilename, hf, if_pos hsize]
  · intro hsize
    simp [TextBuffer.fromFilename, hf,
      if_neg (by omega : ¬ 3 * 1024 * 1024 * 1024 ≤ f.size)]

/-- C7 witness: a file system with one 3 GiB file, opened. -/
theorem claimC7_size_ceiling_witness :
    ((fun n => if n = "big.bin" then some (⟨3 * 1024 * 1024 * 1024, []⟩ : Fsfile)
        else none) : FS) "big.bin" = some ⟨3 * 1024 * 1024 * 1024, []⟩ ∧
    ((3 * 1024 * 1024 * 1024 ≤ (⟨3 * 1024 * 1024 * 1024, []⟩ : Fsfile).size →
      TextBuffer.fromFilename
        (fun n => if n = "big.bin" then some ⟨3 * 1024 * 1024 * 1024, []⟩ else none)
        5 "big.bin" = .error (.invalidData "File was larger than 3GB")) ∧
     ((⟨3 * 1024 * 1024 * 1024, []⟩ : Fsfile).size < 3 * 1024 * 1024 * 1024 →
      TextBuffer.fromFilename
        (fun n => if n = "big.bin" then some ⟨3 * 1024 * 1024 * 1024, []⟩ else none)
        5 "big.bin" = .ok ⟨some ⟨"big.bin", false, 5⟩, []⟩) ∧
     TextBuffer.fromBlank = ⟨none, []⟩) :=
  ⟨rfl, claimC7_size_ceiling _ 5 "big.bin" _ rfl⟩

/-- C4 amended: move_horizontal recomputes `grapheme_col_offset` from the
new main cursor position with reset_grapheme_col_offset (src/buffer.rs
line 217); it does not add `offset` to the old value. -/
theorem claimC4_gco_recomputed (g : Seg) (buf : TextBuffer) (offset : Int)
    (pane : Pane) (r : TextBuffer × Pane)
    (h : TextBuffer.moveHorizontal g buf offset pane = some r) :
    r.2.graphemeColOffset
      = resetGraphemeColOffset g buf.contents r.2.mainCursorStart := by
  by_cases h0 : offset = 0
  · simp [TextBuffer.moveHorizontal, h0] at h
  · simp only [TextBuffer.moveHorizontal, if_neg h0] at h
    rcases Option.map_eq_some'.mp h with ⟨m, hm, rfl⟩
    rfl

/-- C4 amended witness: the counterexample input, where the recomputed
column is 0. -/
theorem claimC4_gco_recomputed_witness :
    TextBuffer.moveHorizontal asciiSeg ⟨none, "a\nb".toList⟩ 2
        ⟨[(0, ⟨0, 0⟩)], 0, 0, 0, 0⟩
      = some (⟨none, "a\nb".toList⟩, ⟨[(2, ⟨2, 0⟩)], 2, 0, 0, 0⟩) ∧
    (⟨[(2, ⟨2, 0⟩)], 2, 0, 0, 0⟩ : Pane).graphemeColOffset
      = resetGraphemeColOffset asciiSeg "a\nb".toList
          (⟨[(2, ⟨2, 0⟩)], 2, 0, 0, 0⟩ : Pane).mainCursorStart :=
  ⟨rfl, claimC4_gco_recomputed asciiSeg ⟨none, "a\nb".toList⟩ 2
    ⟨[(0, ⟨0, 0⟩)], 0, 0, 0, 0⟩ _ rfl⟩

theorem inv_of_rebuild_pane (main₀ : Nat) (f : Nat → Nat → Nat) (pane : Pane)
    (hne : pane.cursors ≠ []) (m : Nat) (gco bid pid : Nat)
    (hm : (cursorRebuild main₀ f pane.cursors 0 ([], none)).2 = some m) :
    (⟨(cursorRebuild main₀ f pane.cursors 0 ([], none)).1, m, gco, bid, pid⟩ : Pane).inv := by
  obtain ⟨h1, h2, h3, h4⟩ := cursorRebuild_result_inv main₀ f pane.cursors hne
  exact ⟨h1, h2, h3 m hm, h4⟩

/-- C9: every operation on a pane preserves the pane invariant (cursor map
non-empty, every Selection keyed by its own start, main cursor present
among the keys, keys strictly sorted), and a fresh pane satisfies it with
one empty Selection at offset 0. -/
theorem claimC9_pane_invariant (g : Seg) (buf : TextBuffer) (pane : Pane)
    (hinv : pane.inv) :
    (∀ b i, (Pane.new b i).inv) ∧
    (∀ t r, TextBuffer.insert g buf t pane = some r → r.2.inv) ∧
    (∀ r, TextBuffer.backdeleteCursor g buf pane = some r → r.2.inv) ∧
    (∀ off r, TextBuffer.moveHorizontal g buf off pane = some r → r.2.inv) ∧
    (∀ off r, TextBuffer.moveVertical g buf off pane = some r → r.2.inv) ∧
    (∀ i, (Pane.setMainCursor g buf.contents pane i).inv) ∧
    (∀ s, (Pane.addCursor pane s).inv) := by
  have hne : pane.cursors ≠ [] := hinv.1
  refine ⟨?_, ?_, ?_, ?_, ?_, ?_, ?_⟩
  · intro b i
    refine ⟨by simp [Pane.new], ?_, by simp [Pane.new, mapKeys], by simp [Pane.new, mapKeys]⟩
    intro kv hkv
    simp only [Pane.new, List.mem_singleton] at hkv
    simp [hkv]
  · intro t r hr
    simp only [TextBuffer.insert] at hr
    rcases Option.map_eq_some'.mp hr with ⟨m, hm, rfl⟩
    exact inv_of_rebuild_pane _ _ pane hne m _ _ _ hm
  · intro r hr
    simp only [TextBuffer.backdeleteCursor] at hr
    rcases Option.map_eq_some'.mp hr with ⟨m, hm, rfl⟩
    exact inv_of_rebuild_pane _ _ pane hne m _ _ _ hm
  · intro off r hr
    by_cases h0 : off = 0
    · simp [TextBuffer.moveHorizontal, h0] at hr
    · simp only [TextBuffer.moveHorizontal, if_neg h0] at hr
      rcases Option.map_eq_some'.mp hr with ⟨m, hm, rfl⟩
      exact inv_of_rebuild_pane _ _ pane hne m _ _ _ hm
  · intro off r hr
    simp only [TextBuffer.moveVertical] at hr
    rcases Option.map_eq_some'.mp hr with ⟨m, hm, rfl⟩
    exact inv_of_rebuild_pane _ _ pane hne m _ _ _ hm
  · intro i
    refine ⟨ordInsert_ne_nil _ _ _, ?_, self_mem_keys_ordInsert _ _ _, ?_⟩
    · intro kv hkv
      rcases mem_ordInsert hkv with h | h
      · simp [h]
      · exact hinv.2.1 kv ((ordErase_sublist pane.cursors pane.mainCursorStart).subset h)
    · apply ordInsert_sorted
      exact List.Pairwise.sublist
        ((ordErase_sublist pane.cursors pane.mainCursorStart).map Prod.fst) hinv.2.2.2
  · intro s
    refine ⟨ordInsert_ne_nil _ _ _, ?_, ?_, ordInsert_sorted _ _ hinv.2.2.2⟩
    · intro kv hkv
      rcases mem_ordInsert hkv with h | h
      · simp [h]
      · exact hinv.2.1 kv h
    · exact mem_keys_ordInsert_of_mem _ hinv.2.2.1

/-- C9 witness: the blank buffer with the freshly created pane. -/
theorem claimC9_pane_invariant_witness :
    (Pane.new 0 0).inv ∧
    ((∀ b i, (Pane.new b i).inv) ∧
     (∀ t r, TextBuffer.insert asciiSeg ⟨none, []⟩ t (Pane.new 0 0) = some r → r.2.inv) ∧
     (∀ r, TextBuffer.backdeleteCursor asciiSeg ⟨none, []⟩ (Pane.new 0 0) = some r → r.2.inv) ∧
     (∀ off r, TextBuffer.moveHorizontal asciiSeg ⟨none, []⟩ off (Pane.new 0 0) = some r → r.2.inv) ∧
     (∀ off r, TextBuffer.moveVertical asciiSeg ⟨none, []⟩ off (Pane.new 0 0) = some r → r.2.inv) ∧
     (∀ i, (Pane.setMainCursor asciiSeg [] (Pane.new 0 0) i).inv) ∧
     (∀ s, ((Pane.new 0 0).addCursor s).inv)) :=
  ⟨by decide, claimC9_pane_invariant asciiSeg ⟨none, []⟩ (Pane.new 0 0) (by decide)⟩


theorem scanLeftB_le (g : Seg) (doc : List Char) : ∀ p, scanLeftB g doc p ≤ p := by
  intro p
  induction p with
  | zero => simp [scanLeftB]
  | succ p ih =>
      simp only [scanLeftB]
      split
      · exact le_refl _
      · omega

theorem scanRightB_ge (g : Seg) (doc : List Char) :
    ∀ fuel p, p ≤ scanRightB g doc fuel p := by
  intro fuel
  induction fuel with
  | zero => intro p; simp [scanRightB]
  | succ fuel ih =>
      intro p
      simp only [scanRightB]
      split
      · exact le_refl _
      · exact le_trans (by omega) (ih (p + 1))

theorem scanRightB_le_of_boundary (g : Seg) (doc : List Char) {q : Nat}
    (hq : g.isB doc q = true) :
    ∀ fuel p, p ≤ q → q < p + fuel → scanRightB g doc fuel p ≤ q := by
  intro fuel
  induction fuel with
  | zero => intro p hpq hfuel; omega
  | succ fuel ih =>
      intro p hpq hfuel
      simp only [scanRightB]
      split
      · exact hpq
      · rename_i hp
        have hne : p ≠ q := fun h => hp (h ▸ hq)
        exact ih (p + 1) (by omega) (by omega)

theorem hStep_true_zero (g : Seg) (doc : List Char) : hStep g doc true 0 = 0 := by
  simp [hStep, scanLeftB]

theorem hStep_false_len (g : Seg) (doc : List Char)
    (hlen : g.isB doc doc.length = true) :
    hStep g doc false doc.length = doc.length := by
  have h₁ : min (doc.length + 1) doc.length = doc.length := by omega
  have h₂ : doc.length + 1 - doc.length = 1 := by omega
  simp [hStep, h₁, h₂, scanRightB, hlen]

theorem hStep_le_len (g : Seg) (doc : List Char) (neg : Bool)
    (hlen : g.isB doc doc.length = true) (s : Nat) :
    hStep g doc neg s ≤ doc.length := by
  cases neg with
  | true =>
      simp only [hStep, if_true]
      exact le_trans (scanLeftB_le g doc _) (min_le_right _ _)
  | false =>
      simp only [hStep, Bool.false_eq_true, if_false]
      apply scanRightB_le_of_boundary g doc hlen
      · exact min_le_right _ _
      · omega

theorem hWalk_left_zero (g : Seg) (doc : List Char) :
    ∀ n, hWalk g doc true n 0 = 0 := by
  intro n
  induction n with
  | zero => rfl
  | succ n ih =>
      simp only [hWalk, hStep_true_zero]
      exact ih

theorem hWalk_right_len (g : Seg) (doc : List Char)
    (hlen : g.isB doc doc.length = true) :
    ∀ n, hWalk g doc false n doc.length = doc.length := by
  intro n
  induction n with
  | zero => rfl
  | succ n ih =>
      simp only [hWalk, hStep_false_len g doc hlen]
      exact ih

theorem hWalk_le_len (g : Seg) (doc : List Char) (neg : Bool)
    (hlen : g.isB doc doc.length = true) :
    ∀ n s, s ≤ doc.length → hWalk g doc neg n s ≤ doc.length := by
  intro n
  induction n with
  | zero => intro s hs; exact hs
  | succ n ih =>
      intro s hs
      simp only [hWalk]
      exact ih _ (hStep_le_len g doc neg hlen s)

theorem hWalk_le_len_of_pos (g : Seg) (doc : List Char) (neg : Bool)
    (hlen : g.isB doc doc.length = true) (n : Nat) (s : Nat) :
    hWalk g doc neg (n + 1) s ≤ doc.length := by
  simp only [hWalk]
  exact hWalk_le_len g doc neg hlen n _ (hStep_le_len g doc neg hlen s)

/-- C6: move_horizontal clamps: the per-cursor walk started at 0 with a
negative direction stays at 0, started at byte_len with a positive
direction stays at byte_len, and every cursor produced by a completed
move_horizontal lies in [0, byte_len] with an empty selection keyed by
its own start. -/
theorem claimC6_moveHorizontal_boundary (g : Seg) (buf : TextBuffer) (pane : Pane)
    (offset : Int) (hval : g.Valid) :
    (∀ n, hWalk g buf.contents true n 0 = 0) ∧
    (∀ n, hWalk g buf.contents false n buf.contents.length = buf.contents.length) ∧
    (∀ r, TextBuffer.moveHorizontal g buf offset pane = some r →
      ∀ kv ∈ r.2.cursors,
        kv.1 ≤ buf.contents.length ∧ kv.2.offset = 0 ∧ kv.2.start = kv.1) := by
  refine ⟨hWalk_left_zero g buf.contents, hWalk_right_len g buf.contents (hval.2.1 _), ?_⟩
  intro r hr kv hkv
  by_cases h0 : offset = 0
  · simp [TextBuffer.moveHorizontal, h0] at hr
  · simp only [TextBuffer.moveHorizontal, if_neg h0] at hr
    rcases Option.map_eq_some'.mp hr with ⟨m, hm, rfl⟩
    revert kv hkv
    have hnat : ∃ k, offset.natAbs = k + 1 := by
      have : offset.natAbs ≠ 0 := by simpa using h0
      exact ⟨offset.natAbs - 1, by omega⟩
    obtain ⟨k, hk⟩ := hnat
    apply cursorRebuild_fst_prop pane.mainCursorStart _
      (fun x => x ≤ buf.contents.length)
      (fun mlist => ∀ kv ∈ mlist,
        kv.1 ≤ buf.contents.length ∧ kv.2.offset = 0 ∧ kv.2.start = kv.1)
    · intro i c
      rw [hk]
      exact hWalk_le_len_of_pos g buf.contents _ (hval.2.1 _) k c
    · intro mlist s hs hP kv hkv
      rcases mem_ordInsert hkv with h | h
      · refine ⟨?_, ?_, ?_⟩ <;> simp [h, hs]
      · exact hP kv h
    · intro kv hkv
      simp at hkv

/-- C6 witness: the two-byte buffer "ab" with one cursor, moved left by 1. -/
theorem claimC6_moveHorizontal_boundary_witness :
    asciiSeg.Valid ∧
    ((∀ n, hWalk asciiSeg "ab".toList true n 0 = 0) ∧
     (∀ n, hWalk asciiSeg "ab".toList false n ("ab".toList).length = ("ab".toList).length) ∧
     (∀ r, TextBuffer.moveHorizontal asciiSeg ⟨none, "ab".toList⟩ (-1)
        ⟨[(0, ⟨0, 0⟩)], 0, 0, 0, 0⟩ = some r →
      ∀ kv ∈ r.2.cursors,
        kv.1 ≤ ("ab".toList).length ∧ kv.2.offset = 0 ∧ kv.2.start = kv.1)) :=
  ⟨asciiSeg_valid, claimC6_moveHorizontal_boundary asciiSeg ⟨none, "ab".toList⟩
    ⟨[(0, ⟨0, 0⟩)], 0, 0, 0, 0⟩ (-1) asciiSeg_valid⟩

theorem byteInsert_append (pre rest : List Char) (n : Nat) (t : List Char)
    (h : pre.length ≤ n) :
    byteInsert (pre ++ rest) n t = pre ++ byteInsert rest (n - pre.length) t := by
  simp [byteInsert, List.take_append_eq_append_take, List.drop_append_eq_append_drop,
    List.take_of_length_le h, List.drop_eq_nil_of_le h]

theorem map_sub_sub (cs : List Nat) (p c : Nat) (h : ∀ x ∈ cs, c ≤ x) (hpc : p ≤ c) :
    (cs.map (fun x => x - p)).map (fun x => x - (c - p)) = cs.map (fun x => x - c) := by
  induction cs with
  | nil => simp
  | cons a as ih =>
      have ha : c ≤ a := h a (List.mem_cons_self a as)
      simp only [List.map_cons, List.cons.injEq]
      refine ⟨by omega, ih (fun x hx => h x (List.mem_cons_of_mem _ hx))⟩

theorem insDoc_eq_specInterleave (t : List Char) :
    ∀ (cs : List Nat), List.Pairwise (· < ·) cs →
      ∀ (i p : Nat) (pre rest : List Char),
        pre.length = p + t.length * i →
        (∀ c ∈ cs, p ≤ c ∧ c ≤ p + rest.length) →
        insDoc t cs i (pre ++ rest)
          = pre ++ specInterleave t (cs.map (fun x => x - p)) rest := by
  intro cs
  induction cs with
  | nil =>
      intro _ i p pre rest _ _
      simp [insDoc, specInterleave]
  | cons c cs ih =>
      intro hsorted i p pre rest hpre hbound
      obtain ⟨hpc, hcb⟩ := hbound c (List.mem_cons_self c cs)
      have hcp_le : c - p ≤ rest.length := by omega
      have hlen_t : pre.length ≤ c + t.length * i := by omega
      have hsub : c + t.length * i - pre.length = c - p := by omega
      simp only [insDoc]
      rw [byteInsert_append pre rest _ t hlen_t, hsub]
      have hassoc : pre ++ byteInsert rest (c - p) t
          = (pre ++ rest.take (c - p) ++ t) ++ rest.drop (c - p) := by
        simp [byteInsert]
      rw [hassoc]
      have hpair := List.pairwise_cons.mp hsorted
      rw [ih hpair.2 (i + 1) c (pre ++ rest.take (c - p) ++ t) (rest.drop (c - p))
        (by
          simp only [List.length_append, List.length_take]
          rw [Nat.mul_succ]
          omega)
        (by
          intro c' hc'
          have h₁ : c < c' := hpair.1 c' hc'
          have h₂ := (hbound c' (List.mem_cons_of_mem _ hc')).2
          simp only [List.length_drop]
          omega)]
      simp only [List.map_cons, specInterleave]
      rw [map_sub_sub cs p c (fun x hx => le_of_lt (hpair.1 x hx)) hpc]
      simp [List.append_assoc]

theorem cursorRebuild_fst_exact (main : Nat) (f : Nat → Nat → Nat)
    (hstep : ∀ j c c', c < c' → f j c < f (j + 1) c') :
    ∀ (cs : List (Nat × Selection)) (i : Nat) (acc : List (Nat × Selection) × Option Nat),
      List.Pairwise (· < ·) (cs.map (fun kv => kv.2.start)) →
      (∀ x ∈ mapKeys acc.1, ∀ kv, cs.head? = some kv → x < f i kv.2.start) →
      (cursorRebuild main f cs i acc).1
        = acc.1 ++ (List.enumFrom i (cs.map (fun kv => kv.2.start))).map
            (fun jc => (f jc.1 jc.2, ⟨f jc.1 jc.2, 0⟩)) := by
  intro cs
  induction cs with
  | nil =>
      intro i acc _ _
      simp [cursorRebuild]
  | cons kv rest ih =>
      intro i acc hsorted hacc
      rw [List.map_cons] at hsorted
      have hpair := List.pairwise_cons.mp hsorted
      simp only [cursorRebuild]
      rw [ih (i + 1) _ hpair.2 ?hb]
      case hb =>
        intro x hx kv' hkv'
        have hmem : kv' ∈ rest := by
          cases rest with
          | nil => simp at hkv'
          | cons a as =>
              simp only [List.head?_cons, Option.some.injEq] at hkv'
              rw [hkv']
              exact List.mem_cons_self kv' as
        have hlt : kv.2.start < kv'.2.start := hpair.1 _ (List.mem_map_of_mem _ hmem)
        have hstep' := hstep i _ _ hlt
        rcases mem_keys_ordInsert hx with h | h
        · omega
        · exact lt_trans (hacc x h kv rfl) hstep'
      have hins : ordInsert acc.1 (f i kv.2.start) ⟨f i kv.2.start, 0⟩
          = acc.1 ++ [(f i kv.2.start, ⟨f i kv.2.start, 0⟩)] :=
        ordInsert_append_last _ (fun x hx => hacc x hx kv rfl)
      rw [hins]
      simp [List.enumFrom_cons, List.append_assoc]

/-- C1: insert on an invariant-satisfying pane whose cursors all lie within
the buffer returns the interleaved contents original[0:c0] + t +
original[c0:c1] + t + ... + original[ck:], re-seats the cursor of ascending
rank i at ci + (i+1)*len(t) with an empty selection, and the cursor whose
old start equals the old main_cursor_start (position j in ascending order)
determines the new main_cursor_start cj + (j+1)*len(t). -/
theorem claimC1_insert_interleave (g : Seg) (buf : TextBuffer) (t : List Char)
    (pane : Pane) (hinv : pane.inv)
    (hbound : ∀ k ∈ mapKeys pane.cursors, k ≤ buf.contents.length) :
    ∃ buf2 pane2,
      TextBuffer.insert g buf t pane = some (buf2, pane2) ∧
      buf2.contents = specInterleave t (mapKeys pane.cursors) buf.contents ∧
      pane2.cursors = specNewCursors t.length (mapKeys pane.cursors) ∧
      ∃ j, (mapKeys pane.cursors).get? j = some pane.mainCursorStart ∧
        pane2.mainCursorStart = pane.mainCursorStart + (j + 1) * t.length := by
  obtain ⟨hne, hkeyed, hmain, hsorted⟩ := hinv
  have hstarts : pane.cursors.map (fun kv => kv.2.start) = mapKeys pane.cursors :=
    List.map_congr_left hkeyed
  obtain ⟨pre, kv₀, post, hdecomp, hkv₀, hpost⟩ :=
    pane_inv_decomp ⟨hne, hkeyed, hmain, hsorted⟩
  have hkv₀mem : kv₀ ∈ pane.cursors := by
    rw [hdecomp]
    exact List.mem_append_right _ (List.mem_cons_self kv₀ post)
  have hk : kv₀.1 = pane.mainCursorStart := by
    rw [← hkv₀]
    exact (hkeyed kv₀ hkv₀mem).symm
  have hstep : ∀ j c c', c < c' →
      c + t.length * j + t.length < c' + t.length * (j + 1) + t.length := by
    intro j c c' h
    rw [Nat.mul_succ]
    omega
  have hsnd : (cursorRebuild pane.mainCursorStart
      (fun i c => c + t.length * i + t.length) pane.cursors 0 ([], none)).2
      = some (pane.mainCursorStart + t.length * pre.length + t.length) := by
    rw [hdecomp]
    have h := cursorRebuild_snd_unique pane.mainCursorStart
      (fun i c => c + t.length * i + t.length) pre post kv₀ hkv₀ hpost 0 ([], none)
    simpa using h
  simp only [TextBuffer.insert, hsnd, Option.map_some']
  refine ⟨_, _, rfl, ?_, ?_, ?_⟩
  · have h := insDoc_eq_specInterleave t (mapKeys pane.cursors)
      hsorted 0 0 [] buf.contents (by simp)
      (by
        intro c hc
        exact ⟨Nat.zero_le c, by simpa using hbound c hc⟩)
    simp only [List.nil_append, Nat.sub_zero] at h
    simpa [hstarts, List.map_id] using h
  · have hex := cursorRebuild_fst_exact pane.mainCursorStart
      (fun i c => c + t.length * i + t.length) hstep pane.cursors 0 ([], none)
      (by rw [hstarts]; exact hsorted)
      (by intro x hx; simp [mapKeys] at hx)
    have henum : (mapKeys pane.cursors).enum
        = List.enumFrom 0 (mapKeys pane.cursors) := rfl
    show (cursorRebuild pane.mainCursorStart
      (fun i c => c + t.length * i + t.length) pane.cursors 0 ([], none)).1
      = specNewCursors t.length (mapKeys pane.cursors)
    rw [hex, hstarts]
    simp only [List.nil_append, specNewCursors, henum]
    apply List.map_congr_left
    intro jc _
    show ((jc.2 + t.length * jc.1 + t.length : Nat),
        (⟨jc.2 + t.length * jc.1 + t.length, 0⟩ : Selection))
      = ((jc.2 + (jc.1 + 1) * t.length : Nat),
        (⟨jc.2 + (jc.1 + 1) * t.length, 0⟩ : Selection))
    have h : jc.2 + t.length * jc.1 + t.length = jc.2 + (jc.1 + 1) * t.length := by
      rw [Nat.succ_mul, Nat.mul_comm t.length jc.1]
      exact Nat.add_assoc _ _ _
    exact congrArg (fun x => ((x : Nat), (⟨x, 0⟩ : Selection))) h
  · refine ⟨pre.length, ?_, ?_⟩
    · rw [hdecomp, mapKeys_append, mapKeys_cons]
      rw [List.get?_append_right (by simp [mapKeys])]
      simp [mapKeys, hk]
    · have h : pane.mainCursorStart + t.length * pre.length + t.length
          = pane.mainCursorStart + (pre.length + 1) * t.length := by
        rw [Nat.succ_mul, Nat.mul_comm t.length pre.length]
        exact Nat.add_assoc _ _ _
      exact h

/-- C1 witness: the Rust unit test input, buffer "abcdefghigh" with cursors
at {1,5,8} and inserted text "xz". -/
theorem claimC1_insert_interleave_witness :
    ((⟨[(1, ⟨1, 1⟩), (5, ⟨5, 1⟩), (8, ⟨8, 1⟩)], 1, 1, 0, 0⟩ : Pane).inv ∧
     (∀ k ∈ mapKeys (⟨[(1, ⟨1, 1⟩), (5, ⟨5, 1⟩), (8, ⟨8, 1⟩)], 1, 1, 0, 0⟩ : Pane).cursors,
        k ≤ ("abcdefghigh".toList).length)) ∧
    (∃ buf2 pane2,
      TextBuffer.insert asciiSeg ⟨none, "abcdefghigh".toList⟩ "xz".toList
          ⟨[(1, ⟨1, 1⟩), (5, ⟨5, 1⟩), (8, ⟨8, 1⟩)], 1, 1, 0, 0⟩ = some (buf2, pane2) ∧
      buf2.contents = specInterleave "xz".toList
          (mapKeys (⟨[(1, ⟨1, 1⟩), (5, ⟨5, 1⟩), (8, ⟨8, 1⟩)], 1, 1, 0, 0⟩ : Pane).cursors)
          "abcdefghigh".toList ∧
      pane2.cursors = specNewCursors ("xz".toList).length
          (mapKeys (⟨[(1, ⟨1, 1⟩), (5, ⟨5, 1⟩), (8, ⟨8, 1⟩)], 1, 1, 0, 0⟩ : Pane).cursors) ∧
      ∃ j, (mapKeys (⟨[(1, ⟨1, 1⟩), (5, ⟨5, 1⟩), (8, ⟨8, 1⟩)], 1, 1, 0, 0⟩ : Pane).cursors).get? j
          = some 1 ∧ pane2.mainCursorStart = 1 + (j + 1) * ("xz".toList).length) :=
  ⟨⟨by decide, by decide⟩,
   claimC1_insert_interleave asciiSeg ⟨none, "abcdefghigh".toList⟩ "xz".toList
     ⟨[(1, ⟨1, 1⟩), (5, ⟨5, 1⟩), (8, ⟨8, 1⟩)], 1, 1, 0, 0⟩ (by decide) (by decide)⟩

theorem countNl_cons (c : Char) (doc : List Char) :
    countNl (c :: doc) = (if c = '\n' then 1 else 0) + countNl doc := by
  by_cases h : c = '\n' <;> simp [countNl, List.filter_cons, h] <;> omega

theorem countNl_take_le_self (doc : List Char) (b : Nat) :
    countNl (doc.take b) ≤ countNl doc := by
  simpa [countNl] using List.Sublist.length_le
    (List.Sublist.filter _ (List.take_sublist b doc))

theorem countNl_take_mono (doc : List Char) {b b' : Nat} (h : b ≤ b') :
    countNl (doc.take b) ≤ countNl (doc.take b') := by
  have heq : doc.take b = (doc.take b').take b := by
    rw [List.take_take, Nat.min_eq_left h]
  rw [heq]
  exact countNl_take_le_self _ b

theorem byteOfLine_le_length (doc : List Char) : ∀ l, byteOfLine doc l ≤ doc.length := by
  induction doc with
  | nil => intro l; cases l <;> simp [byteOfLine]
  | cons c rest ih =>
      intro l
      cases l with
      | zero => simp [byteOfLine]
      | succ k =>
          simp only [byteOfLine, List.length_cons]
          split
          · have := ih k; omega
          · have := ih (k + 1); omega

theorem countNl_take_byteOfLine (doc : List Char) :
    ∀ l, countNl (doc.take (byteOfLine doc l)) = min l (countNl doc) := by
  induction doc with
  | nil => intro l; cases l <;> simp [byteOfLine, countNl]
  | cons c rest ih =>
      intro l
      cases l with
      | zero => simp [byteOfLine, countNl]
      | succ k =>
          simp only [byteOfLine]
          by_cases h : c = '\n'
          · rw [if_pos h]
            have ht : (c :: rest).take (1 + byteOfLine rest k)
                = c :: rest.take (byteOfLine rest k) := by
              rw [Nat.add_comm]
              exact List.take_succ_cons
            rw [ht, countNl_cons, if_pos h, ih k, countNl_cons, if_pos h]
            omega
          · rw [if_neg h]
            have ht : (c :: rest).take (1 + byteOfLine rest (k + 1))
                = c :: rest.take (byteOfLine rest (k + 1)) := by
              rw [Nat.add_comm]
              exact List.take_succ_cons
            rw [ht, countNl_cons, if_neg h, ih (k + 1), countNl_cons, if_neg h]
            omega

theorem byteOfLine_le_of_count (doc : List Char) :
    ∀ l p, l ≤ countNl (doc.take p) → byteOfLine doc l ≤ p := by
  induction doc with
  | nil => intro l p _; cases l <;> simp [byteOfLine]
  | cons c rest ih =>
      intro l p hcount
      cases l with
      | zero => simp [byteOfLine]
      | succ k =>
          cases p with
          | zero => simp [countNl] at hcount
          | succ q =>
              rw [List.take_succ_cons, countNl_cons] at hcount
              simp only [byteOfLine]
              by_cases h : c = '\n'
              · rw [if_pos h]
                rw [if_pos h] at hcount
                have := ih k q (by omega)
                omega
              · rw [if_neg h]
                rw [if_neg h] at hcount
                have := ih (k + 1) q (by omega)
                omega

theorem byteOfLine_newline (doc : List Char) :
    ∀ l, l + 1 ≤ countNl doc →
      1 ≤ byteOfLine doc (l + 1) ∧
      doc.get? (byteOfLine doc (l + 1) - 1) = some '\n' := by
  induction doc with
  | nil => intro l h; simp [countNl] at h
  | cons c rest ih =>
      intro l h
      rw [countNl_cons] at h
      simp only [byteOfLine]
      by_cases hc : c = '\n'
      · rw [if_pos hc]
        cases l with
        | zero =>
            refine ⟨by omega, ?_⟩
            simp [byteOfLine, hc]
        | succ k =>
            have hrest : k + 1 ≤ countNl rest := by
              rw [if_pos hc] at h
              omega
            obtain ⟨h1, h2⟩ := ih k hrest
            refine ⟨by omega, ?_⟩
            have hidx : 1 + byteOfLine rest (k + 1) - 1
                = (byteOfLine rest (k + 1) - 1) + 1 := by omega
            rw [hidx, List.get?_cons_succ]
            exact h2
      · rw [if_neg hc]
        have hrest : l + 1 ≤ countNl rest := by
          rw [if_neg hc] at h
          omega
        obtain ⟨h1, h2⟩ := ih l hrest
        refine ⟨by omega, ?_⟩
        have hidx : 1 + byteOfLine rest (l + 1) - 1
            = (byteOfLine rest (l + 1) - 1) + 1 := by omega
        rw [hidx, List.get?_cons_succ]
        exact h2

theorem byteOfLine_lt_succ (doc : List Char) (l : Nat) (h : l < countNl doc) :
    byteOfLine doc l < byteOfLine doc (l + 1) := by
  by_contra hc
  push_neg at hc
  have h1 := countNl_take_mono doc hc
  rw [countNl_take_byteOfLine, countNl_take_byteOfLine] at h1
  omega

theorem countNl_le_lineLen (doc : List Char) : countNl doc ≤ lineLen doc := by
  rcases hgl : doc.getLast? with _ | c <;> simp [lineLen, hgl] <;> split <;> omega

theorem vWalk_ge (g : Seg) (doc : List Char) (le : Nat) :
    ∀ n s, s ≤ vWalk g doc le n s := by
  intro n
  induction n with
  | zero => intro s; simp [vWalk]
  | succ n ih =>
      intro s
      simp only [vWalk]
      split
      · exact le_refl s
      · exact le_trans (le_trans (by omega) (scanRightB_ge g doc _ (s + 1))) (ih _)

theorem vWalk_le (g : Seg) (doc : List Char) {q : Nat} (hq : g.isB doc q = true)
    (hql : q ≤ doc.length) {le : Nat} (hle : le ≤ q + 1) :
    ∀ n s, s ≤ q → vWalk g doc le n s ≤ q := by
  intro n
  induction n with
  | zero => intro s hs; exact hs
  | succ n ih =>
      intro s hs
      simp only [vWalk]
      split
      · exact hs
      · rename_i hlt
        apply ih
        apply scanRightB_le_of_boundary g doc hq
        · omega
        · omega

theorem vTarget_eq (g : Seg) (doc : List Char) (off : Int) (gco c : Nat) :
    vTarget g doc off gco c
      = vWalk g doc
          (if min (max ((lineOfByte doc c : Int) + off) 0).toNat (lineLen doc)
              = lineLen doc
           then doc.length
           else byteOfLine doc
             (min (max ((lineOfByte doc c : Int) + off) 0).toNat (lineLen doc) + 1))
          gco
          (byteOfLine doc
            (min (max ((lineOfByte doc c : Int) + off) 0).toNat (lineLen doc))) := rfl

theorem vTarget_le_len (g : Seg) (doc : List Char) (hval : g.Valid) (off : Int)
    (gco c : Nat) : vTarget g doc off gco c ≤ doc.length := by
  rw [vTarget_eq]
  apply vWalk_le g doc (hval.2.1 doc) (le_refl doc.length)
  · split
    · omega
    · have := byteOfLine_le_length doc
        (min (max ((lineOfByte doc c : Int) + off) 0).toNat (lineLen doc) + 1)
      omega
  · exact byteOfLine_le_length doc _

theorem landing_line (g : Seg) (doc : List Char) (hval : g.Valid) (gco M : Nat)
    (hM : 1 ≤ M) (hMc : M ≤ countNl doc) :
    lineOfByte doc
      (vWalk g doc
        (if M = lineLen doc then doc.length else byteOfLine doc (M + 1))
        gco (byteOfLine doc M)) = M := by
  have hged : byteOfLine doc M
      ≤ vWalk g doc
          (if M = lineLen doc then doc.length else byteOfLine doc (M + 1))
          gco (byteOfLine doc M) := vWalk_ge g doc _ gco _
  have hlow : M ≤ countNl (doc.take (vWalk g doc
      (if M = lineLen doc then doc.length else byteOfLine doc (M + 1))
      gco (byteOfLine doc M))) := by
    have h := countNl_take_mono doc hged
    rw [countNl_take_byteOfLine] at h
    omega
  have hupp : countNl (doc.take (vWalk g doc
      (if M = lineLen doc then doc.length else byteOfLine doc (M + 1))
      gco (byteOfLine doc M))) ≤ M := by
    by_cases hA : M + 1 ≤ countNl doc
    · have hllen := countNl_le_lineLen doc
      have hne : M ≠ lineLen doc := by omega
      rw [if_neg hne] at hlow hged ⊢
      obtain ⟨hb1, hb2⟩ := byteOfLine_newline doc M hA
      have hq : g.isB doc (byteOfLine doc (M + 1) - 1) = true := hval.2.2 _ _ hb2
      have hmono := byteOfLine_lt_succ doc M (by omega)
      have hlen := byteOfLine_le_length doc (M + 1)
      have hp1le : vWalk g doc (byteOfLine doc (M + 1)) gco (byteOfLine doc M)
          ≤ byteOfLine doc (M + 1) - 1 :=
        vWalk_le g doc hq (by omega) (by omega) gco _ (by omega)
      by_contra hcon
      push_neg at hcon
      have hble := byteOfLine_le_of_count doc (M + 1)
        (vWalk g doc (byteOfLine doc (M + 1)) gco (byteOfLine doc M)) (by omega)
      omega
    · have := countNl_take_le_self doc (vWalk g doc
        (if M = lineLen doc then doc.length else byteOfLine doc (M + 1))
        gco (byteOfLine doc M))
      omega
  simp only [lineOfByte]
  omega

theorem moveVertical_some (g : Seg) (buf : TextBuffer) (off : Int) (pane : Pane)
    (hval : g.Valid) (hinv : pane.inv) :
    ∃ buf2 pane2,
      TextBuffer.moveVertical g buf off pane = some (buf2, pane2) ∧
      buf2.contents = buf.contents ∧
      pane2.mainCursorStart
        = vTarget g buf.contents off pane.graphemeColOffset pane.mainCursorStart ∧
      pane2.graphemeColOffset = pane.graphemeColOffset ∧
      pane2.inv ∧
      (∀ kv ∈ pane2.cursors, kv.1 ≤ buf.contents.length) := by
  obtain ⟨pre, kv₀, post, hdecomp, hkv₀, hpost⟩ := pane_inv_decomp hinv
  have hsnd : (cursorRebuild pane.mainCursorStart
      (fun _ c => vTarget g buf.contents off pane.graphemeColOffset c)
      pane.cursors 0 ([], none)).2
      = some (vTarget g buf.contents off pane.graphemeColOffset pane.mainCursorStart) := by
    rw [hdecomp]
    exact cursorRebuild_snd_unique _ _ pre post kv₀ hkv₀ hpost 0 ([], none)
  refine ⟨⟨buf.file, buf.contents⟩,
    { pane with
        cursors := (cursorRebuild pane.mainCursorStart
          (fun _ c => vTarget g buf.contents off pane.graphemeColOffset c)
          pane.cursors 0 ([], none)).1,
        mainCursorStart :=
          vTarget g buf.contents off pane.graphemeColOffset pane.mainCursorStart },
    ?_, rfl, rfl, rfl, ?_, ?_⟩
  · simp only [TextBuffer.moveVertical, hsnd, Option.map_some']
  · exact inv_of_rebuild_pane _ _ pane hinv.1 _ pane.graphemeColOffset
      pane.bufferId pane.id hsnd
  · apply cursorRebuild_fst_prop _ _ (fun x => x ≤ buf.contents.length)
      (fun m => ∀ kv ∈ m, kv.1 ≤ buf.contents.length)
    · intro i c
      exact vTarget_le_len g buf.contents hval off pane.graphemeColOffset c
    · intro m s hs hP kv hkv
      rcases mem_ordInsert hkv with h | h
      · simp [h, hs]
      · exact hP kv h
    · intro kv hkv
      simp at hkv

/-- C5: moving the main cursor down one line and back up returns it to its
original start, provided the cursor's line is newline-terminated (a line
below exists) and walking grapheme_col_offset graphemes from the line's
start reaches exactly the cursor (the operational form of "the line holds
at least grapheme_col_offset graphemes and the cursor sits at that
column"); move_vertical leaves grapheme_col_offset and the contents
unchanged, and every produced cursor is clamped within [0, byte_len]. -/
theorem claimC5_vertical_roundtrip (g : Seg) (buf : TextBuffer) (pane : Pane)
    (hval : g.Valid) (hinv : pane.inv)
    (hnl : lineOfByte buf.contents pane.mainCursorStart + 1 ≤ countNl buf.contents)
    (hcol : vWalk g buf.contents
        (byteOfLine buf.contents (lineOfByte buf.contents pane.mainCursorStart + 1))
        pane.graphemeColOffset
        (byteOfLine buf.contents (lineOfByte buf.contents pane.mainCursorStart))
      = pane.mainCursorStart) :
    ∃ buf1 pane1 buf2 pane2,
      TextBuffer.moveVertical g buf 1 pane = some (buf1, pane1) ∧
      TextBuffer.moveVertical g buf1 (-1) pane1 = some (buf2, pane2) ∧
      pane2.mainCursorStart = pane.mainCursorStart ∧
      buf1.contents = buf.contents ∧ buf2.contents = buf.contents ∧
      pane1.graphemeColOffset = pane.graphemeColOffset ∧
      pane2.graphemeColOffset = pane.graphemeColOffset ∧
      (∀ kv ∈ pane1.cursors, kv.1 ≤ buf.contents.length) ∧
      (∀ kv ∈ pane2.cursors, kv.1 ≤ buf.contents.length) := by
  have hll := countNl_le_lineLen buf.contents
  obtain ⟨buf1, pane1, he1, hc1, hm1, hg1, hinv1, hb1⟩ :=
    moveVertical_some g buf 1 pane hval hinv
  have hother1 : min (max ((lineOfByte buf.contents pane.mainCursorStart : Int) + 1)
      0).toNat (lineLen buf.contents)
      = lineOfByte buf.contents pane.mainCursorStart + 1 := by omega
  have hmain1 : pane1.mainCursorStart
      = vWalk g buf.contents
          (if lineOfByte buf.contents pane.mainCursorStart + 1 = lineLen buf.contents
           then buf.contents.length
           else byteOfLine buf.contents
             (lineOfByte buf.contents pane.mainCursorStart + 1 + 1))
          pane.graphemeColOffset
          (byteOfLine buf.contents
            (lineOfByte buf.contents pane.mainCursorStart + 1)) := by
    rw [hm1, vTarget_eq, hother1]
  have hline1 : lineOfByte buf.contents pane1.mainCursorStart
      = lineOfByte buf.contents pane.mainCursorStart + 1 := by
    rw [hmain1]
    exact landing_line g buf.contents hval pane.graphemeColOffset
      (lineOfByte buf.contents pane.mainCursorStart + 1) (by omega) hnl
  obtain ⟨buf2, pane2, he2, hc2, hm2, hg2, hinv2, hb2⟩ :=
    moveVertical_some g buf1 (-1) pane1 hval hinv1
  have hother2 : min (max ((lineOfByte buf.contents pane1.mainCursorStart : Int) + (-1))
      0).toNat (lineLen buf.contents)
      = lineOfByte buf.contents pane.mainCursorStart := by
    rw [hline1]
    omega
  have hmain2 : pane2.mainCursorStart = pane.mainCursorStart := by
    rw [hm2, hc1, hg1, vTarget_eq, hother2, if_neg (by omega :
      ¬ lineOfByte buf.contents pane.mainCursorStart = lineLen buf.contents)]
    exact hcol
  refine ⟨buf1, pane1, buf2, pane2, he1, he2, hmain2, hc1, hc2.trans hc1,
    hg1, hg2.trans hg1, hb1, ?_⟩
  intro kv hkv
  have := hb2 kv hkv
  rwa [hc1] at this

/-- C5 witness: buffer "ab\ncd\nef" with the main cursor at byte 1 (line 0,
column 1) and grapheme_col_offset 1; down lands at byte 4, up returns to 1. -/
theorem claimC5_vertical_roundtrip_witness :
    (asciiSeg.Valid ∧ (⟨[(1, ⟨1, 0⟩)], 1, 1, 0, 0⟩ : Pane).inv ∧
     lineOfByte ("ab\ncd\nef".toList) 1 + 1 ≤ countNl ("ab\ncd\nef".toList) ∧
     vWalk asciiSeg ("ab\ncd\nef".toList)
        (byteOfLine ("ab\ncd\nef".toList) (lineOfByte ("ab\ncd\nef".toList) 1 + 1))
        1 (byteOfLine ("ab\ncd\nef".toList) (lineOfByte ("ab\ncd\nef".toList) 1)) = 1) ∧
    (∃ buf1 pane1 buf2 pane2,
      TextBuffer.moveVertical asciiSeg ⟨none, "ab\ncd\nef".toList⟩ 1
          ⟨[(1, ⟨1, 0⟩)], 1, 1, 0, 0⟩ = some (buf1, pane1) ∧
      TextBuffer.moveVertical asciiSeg buf1 (-1) pane1 = some (buf2, pane2) ∧
      pane2.mainCursorStart = 1 ∧
      buf1.contents = "ab\ncd\nef".toList ∧ buf2.contents = "ab\ncd\nef".toList ∧
      pane1.graphemeColOffset = 1 ∧ pane2.graphemeColOffset = 1 ∧
      (∀ kv ∈ pane1.cursors, kv.1 ≤ ("ab\ncd\nef".toList).length) ∧
      (∀ kv ∈ pane2.cursors, kv.1 ≤ ("ab\ncd\nef".toList).length)) :=
  ⟨⟨asciiSeg_valid, by decide, by decide, by decide⟩,
   claimC5_vertical_roundtrip asciiSeg ⟨none, "ab\ncd\nef".toList⟩
     ⟨[(1, ⟨1, 0⟩)], 1, 1, 0, 0⟩ asciiSeg_valid (by decide) (by decide) (by decide)⟩
